import Mathlib

/-!
Verification of the natural-language specification of `esphome/yaml_util.py`
(the ESPHome YAML extension layer) against a shallow Lean embedding of its
code.  Python dicts are modelled as association lists with Python dict
semantics (update-in-place keeps the position of an existing key, new keys
are appended); Python exceptions are modelled with `Except`; the loader
state (`self.vars`, the module-level `_SECRET_VALUES` / `_SECRET_CACHE`
registries and the calls into the `read_config_file` collaborator) is
threaded explicitly.
-/

namespace YamlUtil

/-- Source position carried by a YAML parse node (`node.start_mark`). -/
structure Mark where
  line : Nat
  column : Nat
  deriving DecidableEq, Repr

/-- A Python float as the dumper sees it.  A finite float is carried
together with its CPython `repr` string (CPython guarantees the repr of a
finite float is a lowercase decimal/exponent form); `nan`, `inf` and
`-inf` are the values recognised by `math.isnan` / `math.isinf`. -/
inductive PyFloat where
  | nan
  | inf
  | neginf
  | finite (repr : String)
  deriving DecidableEq, Repr

/-- The values produced by the construction pass of `ESPHomeLoader`:
standard YAML scalars, mappings (string keys, insertion ordered),
sequences, plus the `ForList` marker produced by `!for`, `Lambda`
(from `!lambda`) and the stringifiable wrapper classes (IPAddress,
MACAddress, TimePeriod, uuid.UUID) that the dumper registers
`represent_stringify` for; `wrapped` carries their `str()` form. -/
inductive Val where
  | vnull
  | bool (b : Bool)
  | int (n : Int)
  | float (f : PyFloat)
  | str (s : String)
  | lam (code : String)
  | wrapped (s : String)
  | map (pairs : List (String × Val))
  | seq (items : List Val)
  | forList (items : List Val)
  deriving Repr

/-- Python `str()` for the scalar values the code stringifies
(`_SECRET_VALUES[str(val)]`, `str(item[CONF_ID])`, `str(key)`).
Containers are never stringified on the paths the claims exercise
(container keys are rejected as unhashable before `str(key)` runs), so
they get placeholder renderings. -/
def pyStr : Val → String
  | .vnull => "None"
  | .bool b => if b then "True" else "False"
  | .int n => toString n
  | .float .nan => "nan"
  | .float .inf => "inf"
  | .float .neginf => "-inf"
  | .float (.finite r) => r
  | .str s => s
  | .lam c => c
  | .wrapped s => s
  | .map _ => "<mapping>"
  | .seq _ => "<sequence>"
  | .forList _ => "<sequence>"

/-- Python dict assignment `d[k] = v`: replace the value in place if the
key is present, append otherwise. -/
def dUpdate {κ α : Type} [BEq κ] : List (κ × α) → κ → α → List (κ × α)
  | [], k, v => [(k, v)]
  | (k₀, v₀) :: rest, k, v =>
      if k₀ == k then (k, v) :: rest else (k₀, v₀) :: dUpdate rest k v

/-- Python dict deletion `del d[k]`: remove the (first) binding of `k`,
keeping the order of the other bindings. -/
def eraseKey {κ α : Type} [BEq κ] : List (κ × α) → κ → List (κ × α)
  | [], _ => []
  | (k₀, v₀) :: rest, k =>
      if k₀ == k then rest else (k₀, v₀) :: eraseKey rest k

/-- Python truthiness of a constructed value (`bool(x)`): `None`, `False`,
zero, empty strings and empty containers are falsy. -/
def pyTruthy : Val → Bool
  | .vnull => false
  | .bool b => b
  | .int n => n != 0
  | .float (.finite r) => !(r = "0.0" || r = "-0.0")
  | .float _ => true
  | .str s => s ≠ ""
  | .lam _ => true
  | .wrapped s => s ≠ ""
  | .map ps => !ps.isEmpty
  | .seq items => !items.isEmpty
  | .forList items => !items.isEmpty

/-! ## `construct_sequence` (C2): flattening of `!for` output -/

/-- The `flatten_for` helper inside `ESPHomeLoader.construct_sequence`:
items that are `ForList` are spliced by a recursive call, items that are
`None` are dropped, everything else is kept. -/
def flattenFor : List Val → List Val
  | [] => []
  | .forList items :: rest => flattenFor items ++ flattenFor rest
  | .vnull :: rest => flattenFor rest
  | v :: rest => v :: flattenFor rest

/-- `ESPHomeLoader.construct_sequence`: the base-class construction of the
children (given here as the already-constructed list) followed by
`flatten_for`. -/
def constructSequence (children : List Val) : List Val :=
  flattenFor children

/-- One-level flattening as the words of claim C2 describe it: a child
that is the output of `!for` is spliced into the parent exactly one
level (its items are adopted as-is), and null children contribute zero
elements.  Stated from the claim, for comparison against the code. -/
def oneLevelFlatten : List Val → List Val
  | [] => []
  | .forList items :: rest => items ++ oneLevelFlatten rest
  | .vnull :: rest => oneLevelFlatten rest
  | v :: rest => v :: oneLevelFlatten rest

/-! ## `_load_yaml_string` (C10): falsy roots -/

/-- The body of `_load_yaml_string` on a successfully parsed document:
`loader.get_single_data() or OrderedDict()` — a falsy root is replaced by
an empty ordered mapping.  An empty document parses to `None`, i.e.
`Val.vnull` here. -/
def loadYamlStringResult (root : Val) : Val :=
  if pyTruthy root then root else .map []

/-- Tests whether a value is the `ForList` marker (Python
`isinstance(item, ForList)`). -/
def isForListB : Val → Bool
  | .forList _ => true
  | _ => false

/-- Tests whether a value is Python `None` (`item is not None`). -/
def isNullB : Val → Bool
  | .vnull => true
  | _ => false

theorem flattenFor_append (xs ys : List Val) :
    flattenFor (xs ++ ys) = flattenFor xs ++ flattenFor ys := by
  induction xs with
  | nil => simp [flattenFor]
  | cons hd tl ih => cases hd <;> simp [flattenFor, ih]

theorem flattenFor_plain (v : Val) (hf : isForListB v = false)
    (hn : isNullB v = false) : flattenFor [v] = [v] := by
  cases v <;> simp_all [flattenFor, isForListB, isNullB]

/-- C2, counterexample: the code does not flatten `!for` output exactly
one level.  `flatten_for` recurses into nested `ForList`s, so a sequence
whose single child is a `ForList` containing another `ForList` is fully
dissolved, where one-level flattening (the claim as stated) would keep
the inner `ForList` as an element. -/
theorem constructSequence_not_one_level :
    constructSequence [.forList [.forList [.int 2], .int 3]] = [.int 2, .int 3] ∧
    oneLevelFlatten [.forList [.forList [.int 2], .int 3]] = [.forList [.int 2], .int 3] ∧
    ([Val.int 2, Val.int 3] : List Val) ≠ [.forList [.int 2], .int 3] := by
  refine ⟨?_, rfl, ?_⟩ <;> simp [constructSequence, flattenFor]

/-- C2 (amended): `construct_sequence` splices `ForList` children
recursively — a `ForList` child is dissolved into the parent, and
`ForList`s nested inside it are dissolved as well — while null children
contribute zero elements and every other child is kept in order; in
particular `[1, !for {items: [2,3], repeat: ...}, 4]` constructs to
`[1, "2", "3", 4]`. -/
theorem constructSequence_spec (xs ys : List Val) (v : Val) :
    constructSequence (xs ++ ys) = constructSequence xs ++ constructSequence ys ∧
    constructSequence [.forList xs] = constructSequence xs ∧
    (isForListB v = false → isNullB v = false → constructSequence [v] = [v]) ∧
    constructSequence [.vnull] = [] ∧
    constructSequence [.int 1, .forList [.str "2", .str "3"], .int 4]
      = [.int 1, .str "2", .str "3", .int 4] := by
  refine ⟨flattenFor_append xs ys, ?_, fun hf hn => flattenFor_plain v hf hn, ?_, ?_⟩ <;>
    simp [constructSequence, flattenFor]

/-- C2, witness for the amended theorem at concrete inputs. -/
theorem constructSequence_spec_witness :
    constructSequence [Val.int 7] = [Val.int 7] ∧
    constructSequence ([Val.int 1] ++ [Val.int 4]) =
      constructSequence [Val.int 1] ++ constructSequence [Val.int 4] := by
  exact ⟨(constructSequence_spec [] [] (.int 7)).2.2.1 rfl rfl,
         (constructSequence_spec [Val.int 1] [Val.int 4] (.int 7)).1⟩

/-- C10: for every falsy constructed root — null (also produced by an
empty document), an empty mapping, an empty sequence, `false`, `0` and
the empty string — `_load_yaml_string` returns an empty ordered mapping
rather than the falsy root itself. -/
theorem loadYamlString_falsy_root :
    loadYamlStringResult .vnull = .map [] ∧
    loadYamlStringResult (.map []) = .map [] ∧
    loadYamlStringResult (.seq []) = .map [] ∧
    loadYamlStringResult (.bool false) = .map [] ∧
    loadYamlStringResult (.int 0) = .map [] ∧
    loadYamlStringResult (.str "") = .map [] :=
  ⟨rfl, rfl, rfl, rfl, rfl, rfl⟩

/-! ## Association-list lemmas shared by the claims -/

theorem lookup_append {κ α : Type} [BEq κ] (l₁ l₂ : List (κ × α)) (k : κ) :
    (l₁ ++ l₂).lookup k = ((l₁.lookup k).or (l₂.lookup k)) := by
  induction l₁ with
  | nil => simp [List.lookup]
  | cons hd tl ih =>
      obtain ⟨k₀, v₀⟩ := hd
      by_cases h : (k == k₀) = true
      · simp [List.lookup, h]
      · simp only [Bool.not_eq_true] at h
        simp [List.lookup, h, ih]

theorem lookup_isSome_iff {κ α : Type} [BEq κ] [LawfulBEq κ]
    (l : List (κ × α)) (k : κ) :
    (l.lookup k).isSome = true ↔ k ∈ l.map Prod.fst := by
  induction l with
  | nil => simp [List.lookup]
  | cons hd tl ih =>
      obtain ⟨k₀, v₀⟩ := hd
      by_cases h : (k == k₀) = true
      · simp [List.lookup, h, eq_of_beq h]
      · simp only [Bool.not_eq_true] at h
        have hne : k ≠ k₀ := fun he => by simp [he] at h
        simp [List.lookup, h, ih, hne]

theorem lookup_eq_none_iff {κ α : Type} [BEq κ] [LawfulBEq κ]
    (l : List (κ × α)) (k : κ) :
    l.lookup k = none ↔ ¬ k ∈ l.map Prod.fst := by
  rw [← lookup_isSome_iff (l := l) (k := k)]
  cases h : l.lookup k <;> simp [h]

theorem dUpdate_of_lookup_none {κ α : Type} [BEq κ] [LawfulBEq κ] (l : List (κ × α))
    (k : κ) (v : α) (h : l.lookup k = none) : dUpdate l k v = l ++ [(k, v)] := by
  induction l with
  | nil => rfl
  | cons hd tl ih =>
      obtain ⟨k₀, v₀⟩ := hd
      by_cases hk : (k == k₀) = true
      · simp [List.lookup, hk] at h
      · simp only [Bool.not_eq_true] at hk
        simp only [List.lookup, hk] at h
        have hk₀ : (k₀ == k) = false := by
          cases hkk : k₀ == k
          · rfl
          · cases hk₂ : k == k₀ <;> simp_all [BEq.comm]
        simp [dUpdate, hk₀, ih h]

theorem mem_of_lookup_eq_some {κ α : Type} [BEq κ] [LawfulBEq κ]
    {l : List (κ × α)} {k : κ} {v : α} (h : l.lookup k = some v) : (k, v) ∈ l := by
  induction l with
  | nil => simp [List.lookup] at h
  | cons hd tl ih =>
      obtain ⟨k₀, v₀⟩ := hd
      by_cases hk : (k == k₀) = true
      · simp only [List.lookup, hk] at h
        cases h
        simp [eq_of_beq hk]
      · simp only [Bool.not_eq_true] at hk
        simp only [List.lookup, hk] at h
        exact List.mem_cons_of_mem _ (ih h)

theorem mem_of_mem_eraseKey {κ α : Type} [BEq κ] {l : List (κ × α)}
    {k : κ} {p : κ × α} (h : p ∈ eraseKey l k) : p ∈ l := by
  induction l with
  | nil => simp [eraseKey] at h
  | cons hd tl ih =>
      obtain ⟨k₀, v₀⟩ := hd
      by_cases hk : (k₀ == k) = true
      · simp only [eraseKey, hk, if_true] at h
        exact List.mem_cons_of_mem _ h
      · simp only [Bool.not_eq_true] at hk
        simp only [eraseKey, hk] at h
        rcases List.mem_cons.1 h with h₁ | h₂
        · exact h₁ ▸ List.mem_cons_self _ _
        · exact List.mem_cons_of_mem _ (ih h₂)

theorem mem_of_mem_dUpdate {κ α : Type} [BEq κ] {l : List (κ × α)}
    {k : κ} {v : α} {p : κ × α} (h : p ∈ dUpdate l k v) :
    p ∈ l ∨ p = (k, v) := by
  induction l with
  | nil => simp [dUpdate] at h; simp [h]
  | cons hd tl ih =>
      obtain ⟨k₀, v₀⟩ := hd
      by_cases hk : (k₀ == k) = true
      · simp only [dUpdate, hk, if_true] at h
        rcases List.mem_cons.1 h with h₁ | h₂
        · exact Or.inr h₁
        · exact Or.inl (List.mem_cons_of_mem _ h₂)
      · simp only [Bool.not_eq_true] at hk
        simp only [dUpdate, hk] at h
        rcases List.mem_cons.1 h with h₁ | h₂
        · exact Or.inl (h₁ ▸ List.mem_cons_self _ _)
        · rcases ih h₂ with h₃ | h₃
          · exact Or.inl (List.mem_cons_of_mem _ h₃)
          · exact Or.inr h₃

/-! ## `construct_yaml_map` (C1, C8) -/

/-- One key/value entry of a YAML mapping node as `construct_yaml_map`
sees it: either a plain pair (already-constructed key with the key
node's start mark, and the constructed value) or the value of a `<<`
merge key. -/
inductive MapEntry where
  | direct (key : Val) (mark : Mark) (value : Val)
  | merge (value : Val)

/-- Construction errors raised by `construct_yaml_map`
(`yaml.constructor.ConstructorError`). -/
inductive YErr where
  | unhashableKey (mark : Mark)
  | duplicateKey (key : String) (cur : Mark) (prev : Option Mark)
  | badMergeItem
  | badMergeValue
  deriving DecidableEq, Repr

/-- Python `hash(key)` succeeds: dicts and lists are unhashable. -/
def hashableVal : Val → Bool
  | .map _ => false
  | .seq _ => false
  | .forList _ => false
  | _ => true

/-- The items of a Python list value (`isinstance(value, list)` matches
both plain lists and the `ForList` subclass). -/
def asListItems : Val → Option (List Val)
  | .seq items => some items
  | .forList items => some items
  | _ => none

/-- Collects the pairs of a sequence-valued `<<` merge: every item must
be a mapping, whose pairs are concatenated in order. -/
def mergeSeqItems : List Val → Except YErr (List (String × Val))
  | [] => .ok []
  | .map ps :: rest => (mergeSeqItems rest).map (ps ++ ·)
  | _ :: _ => .error .badMergeItem

/-- The pairs contributed by one `<<` merge value: a mapping contributes
its own pairs, a sequence of mappings contributes their concatenation,
anything else is a construction error. -/
def mergeEntryPairs (v : Val) : Except YErr (List (String × Val)) :=
  match v with
  | .map ps => .ok ps
  | .seq items => mergeSeqItems items
  | .forList items => mergeSeqItems items
  | _ => .error .badMergeValue

/-- The accumulator of the first pass of `construct_yaml_map`: the
direct pairs, the merge pairs, and `seen_keys` (key string mapped to the
mark of its declaration, or `none` once the merge phase adopts it). -/
structure FPState where
  pairs : List (String × Val)
  mergePairs : List (String × Val)
  seen : List (String × Option Mark)

/-- One iteration of the first loop of `construct_yaml_map`: a direct
pair checks hashability, coerces the key with `str`, raises on a
duplicate and records the pair; a `<<` entry resolves its merge pairs. -/
def firstPassStep (st : FPState) (e : MapEntry) : Except YErr FPState :=
  match e with
  | .direct k mark v =>
      if hashableVal k = false then .error (.unhashableKey mark)
      else
        let ks := pyStr k
        match st.seen.lookup ks with
        | some prev => .error (.duplicateKey ks mark prev)
        | none => .ok { st with seen := dUpdate st.seen ks (some mark),
                                pairs := st.pairs ++ [(ks, v)] }
  | .merge v =>
      match mergeEntryPairs v with
      | .ok ps => .ok { st with mergePairs := st.mergePairs ++ ps }
      | .error e => .error e

/-- The first loop of `construct_yaml_map` over all entries of the node. -/
def firstPass : List MapEntry → FPState → Except YErr FPState
  | [], st => .ok st
  | e :: rest, st =>
      match firstPassStep st e with
      | .ok st₁ => firstPass rest st₁
      | .error err => .error err

/-- The merge-resolution loop of `construct_yaml_map`: each merge pair is
appended only when its key is not in `seen_keys`, and adopted keys are
added to `seen_keys` (with a `None` mark). -/
def mergePhase : List (String × Val) → List (String × Val) →
    List (String × Option Mark) → List (String × Val)
  | [], pairs, _ => pairs
  | (k, v) :: rest, pairs, seen =>
      if (seen.lookup k).isSome then mergePhase rest pairs seen
      else mergePhase rest (pairs ++ [(k, v)]) (dUpdate seen k none)

/-- `ESPHomeLoader.construct_yaml_map`: first pass over the entries, then
merge resolution; the result is the ordered pair list (`OrderedDict`). -/
def constructYamlMap (entries : List MapEntry) : Except YErr (List (String × Val)) :=
  match firstPass entries ⟨[], [], []⟩ with
  | .ok st => .ok (mergePhase st.mergePairs st.pairs st.seen)
  | .error e => .error e

/-- Specification view: the direct pairs of the entry list, keys coerced
with `str`, in declaration order. -/
def directPairsOf : List MapEntry → List (String × Val)
  | [] => []
  | .direct k _ v :: rest => (pyStr k, v) :: directPairsOf rest
  | .merge _ :: rest => directPairsOf rest

/-- Specification view: the key strings of the direct pairs. -/
def directKeysOf (entries : List MapEntry) : List String :=
  (directPairsOf entries).map Prod.fst

/-- Specification view: the merge pairs of all `<<` entries, in
encounter order. -/
def mergePairsOf : List MapEntry → List (String × Val)
  | [] => []
  | .merge v :: rest => ((mergeEntryPairs v).toOption.getD []) ++ mergePairsOf rest
  | .direct _ _ _ :: rest => mergePairsOf rest

/-- Specification view of merge-key adoption: a merge pair is adopted
only if its key was not seen from a direct pair or an earlier adopted
merge pair, and adopted pairs keep their encounter order. -/
def mergeAdopt : List (String × Val) → List String → List (String × Val)
  | [], _ => []
  | (k, v) :: rest, seenKs =>
      if k ∈ seenKs then mergeAdopt rest seenKs
      else (k, v) :: mergeAdopt rest (seenKs ++ [k])

theorem firstPass_append (xs ys : List MapEntry) (st : FPState) :
    firstPass (xs ++ ys) st =
      match firstPass xs st with
      | .ok st₁ => firstPass ys st₁
      | .error e => .error e := by
  induction xs generalizing st with
  | nil => rfl
  | cons e rest ih =>
      simp only [List.cons_append, firstPass]
      cases firstPassStep st e with
      | ok st₁ => exact ih st₁
      | error err => rfl

theorem firstPass_ok_state (entries : List MapEntry) (st st' : FPState)
    (h : firstPass entries st = .ok st') :
    st'.pairs = st.pairs ++ directPairsOf entries ∧
    st'.mergePairs = st.mergePairs ++ mergePairsOf entries ∧
    st'.seen.map Prod.fst = st.seen.map Prod.fst ++ directKeysOf entries := by
  induction entries generalizing st with
  | nil =>
      cases h
      simp [directPairsOf, mergePairsOf, directKeysOf]
  | cons e rest ih =>
      cases e with
      | direct k mark v =>
          by_cases hh : hashableVal k = false
          · simp [firstPass, firstPassStep, hh] at h
          · simp only [Bool.not_eq_false] at hh
            cases hsl : st.seen.lookup (pyStr k) with
            | some prev => simp [firstPass, firstPassStep, hh, hsl] at h
            | none =>
                have hstep : firstPass rest
                    { st with seen := dUpdate st.seen (pyStr k) (some mark),
                              pairs := st.pairs ++ [(pyStr k, v)] } = .ok st' := by
                  simpa [firstPass, firstPassStep, hh, hsl] using h
                obtain ⟨h₁, h₂, h₃⟩ := ih _ hstep
                refine ⟨?_, by simpa [mergePairsOf] using h₂, ?_⟩
                · rw [h₁]; simp [directPairsOf]
                · rw [h₃, dUpdate_of_lookup_none _ _ _ hsl]
                  simp [directKeysOf, directPairsOf]
      | merge v =>
          cases hm : mergeEntryPairs v with
          | error err => simp [firstPass, firstPassStep, hm] at h
          | ok ps =>
              have hstep : firstPass rest
                  { st with mergePairs := st.mergePairs ++ ps } = .ok st' := by
                simpa [firstPass, firstPassStep, hm] using h
              obtain ⟨h₁, h₂, h₃⟩ := ih _ hstep
              refine ⟨by simpa [directPairsOf] using h₁, ?_,
                      by simpa [directKeysOf, directPairsOf] using h₃⟩
              rw [h₂]
              simp [mergePairsOf, hm, Except.toOption]

theorem firstPass_preserves_lookup (entries : List MapEntry) (st st' : FPState)
    (key : String) (x : Option Mark)
    (h : firstPass entries st = .ok st') (hl : st.seen.lookup key = some x) :
    st'.seen.lookup key = some x := by
  induction entries generalizing st with
  | nil => cases h; exact hl
  | cons e rest ih =>
      cases e with
      | direct k mark v =>
          by_cases hh : hashableVal k = false
          · simp [firstPass, firstPassStep, hh] at h
          · simp only [Bool.not_eq_false] at hh
            cases hsl : st.seen.lookup (pyStr k) with
            | some prev => simp [firstPass, firstPassStep, hh, hsl] at h
            | none =>
                have hstep : firstPass rest
                    { st with seen := dUpdate st.seen (pyStr k) (some mark),
                              pairs := st.pairs ++ [(pyStr k, v)] } = .ok st' := by
                  simpa [firstPass, firstPassStep, hh, hsl] using h
                refine ih _ hstep ?_
                rw [dUpdate_of_lookup_none _ _ _ hsl, lookup_append, hl]
                rfl
      | merge v =>
          cases hm : mergeEntryPairs v with
          | error err => simp [firstPass, firstPassStep, hm] at h
          | ok ps =>
              have hstep : firstPass rest
                  { st with mergePairs := st.mergePairs ++ ps } = .ok st' := by
                simpa [firstPass, firstPassStep, hm] using h
              exact ih _ hstep hl

theorem firstPass_ok_lookup (entries : List MapEntry) (st st' : FPState)
    (k : Val) (m : Mark) (v : Val)
    (h : firstPass entries st = .ok st')
    (hmem : MapEntry.direct k m v ∈ entries) :
    st'.seen.lookup (pyStr k) = some (some m) := by
  induction entries generalizing st with
  | nil => simp at hmem
  | cons e rest ih =>
      rcases List.mem_cons.1 hmem with he | hrest
      · subst he
        by_cases hh : hashableVal k = false
        · simp [firstPass, firstPassStep, hh] at h
        · simp only [Bool.not_eq_false] at hh
          cases hsl : st.seen.lookup (pyStr k) with
          | some prev => simp [firstPass, firstPassStep, hh, hsl] at h
          | none =>
              have hstep : firstPass rest
                  { st with seen := dUpdate st.seen (pyStr k) (some m),
                            pairs := st.pairs ++ [(pyStr k, v)] } = .ok st' := by
                simpa [firstPass, firstPassStep, hh, hsl] using h
              refine firstPass_preserves_lookup rest _ st' _ _ hstep ?_
              rw [dUpdate_of_lookup_none _ _ _ hsl, lookup_append, hsl]
              simp [List.lookup]
      · cases e with
        | direct k₀ m₀ v₀ =>
            by_cases hh : hashableVal k₀ = false
            · simp [firstPass, firstPassStep, hh] at h
            · simp only [Bool.not_eq_false] at hh
              cases hsl : st.seen.lookup (pyStr k₀) with
              | some prev => simp [firstPass, firstPassStep, hh, hsl] at h
              | none =>
                  have hstep : firstPass rest
                      { st with seen := dUpdate st.seen (pyStr k₀) (some m₀),
                                pairs := st.pairs ++ [(pyStr k₀, v₀)] } = .ok st' := by
                    simpa [firstPass, firstPassStep, hh, hsl] using h
                  exact ih _ hstep hrest
        | merge v₀ =>
            cases hm : mergeEntryPairs v₀ with
            | error err => simp [firstPass, firstPassStep, hm] at h
            | ok ps =>
                have hstep : firstPass rest
                    { st with mergePairs := st.mergePairs ++ ps } = .ok st' := by
                  simpa [firstPass, firstPassStep, hm] using h
                exact ih _ hstep hrest

theorem mergePhase_eq (mps pairs : List (String × Val))
    (seen : List (String × Option Mark)) :
    mergePhase mps pairs seen = pairs ++ mergeAdopt mps (seen.map Prod.fst) := by
  induction mps generalizing pairs seen with
  | nil => simp [mergePhase, mergeAdopt]
  | cons hd tl ih =>
      obtain ⟨k, v⟩ := hd
      by_cases hmem : k ∈ seen.map Prod.fst
      · have hsome : (seen.lookup k).isSome = true := (lookup_isSome_iff seen k).2 hmem
        simp [mergePhase, mergeAdopt, hsome, hmem, ih]
      · have hnone : seen.lookup k = none := (lookup_eq_none_iff seen k).2 hmem
        have hsome : (seen.lookup k).isSome = false := by simp [hnone]
        simp only [mergePhase, mergeAdopt, hsome, hmem, if_false, Bool.false_eq_true,
          if_neg, ite_false]
        rw [ih, dUpdate_of_lookup_none _ _ _ hnone]
        simp [List.append_assoc]

/-- C1: whenever `construct_yaml_map` succeeds, the resulting mapping is
the direct pairs in declaration order followed by the merge pairs in
encounter order, where a merge pair is adopted only if its key was not
already seen from a direct pair or an earlier merge pair; in particular
constructing `{a: 1, <<: {a: 2, b: 3}}` yields `{a: 1, b: 3}`. -/
theorem constructYamlMap_merge_spec (entries : List MapEntry)
    (m : List (String × Val)) (h : constructYamlMap entries = .ok m) :
    m = directPairsOf entries ++
        mergeAdopt (mergePairsOf entries) (directKeysOf entries) := by
  unfold constructYamlMap at h
  cases hfp : firstPass entries ⟨[], [], []⟩ with
  | error e => rw [hfp] at h; cases h
  | ok st =>
      rw [hfp] at h
      cases h
      obtain ⟨h₁, h₂, h₃⟩ := firstPass_ok_state entries _ st hfp
      simp only [List.nil_append, List.map_nil] at h₁ h₂ h₃
      rw [mergePhase_eq, h₁, h₂, h₃, directKeysOf]

/-- C1, witness: the merge-precedence example `{a: 1, <<: {a: 2, b: 3}}`
constructs to `{a: 1, b: 3}`. -/
theorem constructYamlMap_merge_spec_witness :
    ([("a", Val.int 1), ("b", Val.int 3)] : List (String × Val)) =
      directPairsOf [MapEntry.direct (.str "a") ⟨1, 1⟩ (.int 1),
                     MapEntry.merge (.map [("a", .int 2), ("b", .int 3)])] ++
      mergeAdopt
        (mergePairsOf [MapEntry.direct (.str "a") ⟨1, 1⟩ (.int 1),
                       MapEntry.merge (.map [("a", .int 2), ("b", .int 3)])])
        (directKeysOf [MapEntry.direct (.str "a") ⟨1, 1⟩ (.int 1),
                       MapEntry.merge (.map [("a", .int 2), ("b", .int 3)])]) :=
  constructYamlMap_merge_spec
    [MapEntry.direct (.str "a") ⟨1, 1⟩ (.int 1),
     MapEntry.merge (.map [("a", .int 2), ("b", .int 3)])]
    [("a", Val.int 1), ("b", Val.int 3)] (by rfl)

/-- C8: a mapping with two direct (non-merge) keys that coerce to the
same string fails with a duplicate-key error carrying the current
declaration's mark and the prior declaration's mark, and no partial
mapping is returned (the result is an error, not a mapping). -/
theorem constructYamlMap_duplicate (pre post : List MapEntry) (k₁ k₂ : Val)
    (m₁ m₂ : Mark) (v₁ v₂ : Val) (s : FPState)
    (hpre : firstPass pre ⟨[], [], []⟩ = .ok s)
    (hmem : MapEntry.direct k₁ m₁ v₁ ∈ pre)
    (hkey : pyStr k₁ = pyStr k₂)
    (hhash : hashableVal k₂ = true) :
    constructYamlMap (pre ++ MapEntry.direct k₂ m₂ v₂ :: post) =
      .error (.duplicateKey (pyStr k₂) m₂ (some m₁)) := by
  have hlook : s.seen.lookup (pyStr k₂) = some (some m₁) := by
    rw [← hkey]
    exact firstPass_ok_lookup pre _ s k₁ m₁ v₁ hpre hmem
  unfold constructYamlMap
  rw [firstPass_append, hpre]
  simp [firstPass, firstPassStep, hhash, hlook]

/-- C8, witness: `{k: 1, k: 2}` is rejected with both marks reported. -/
theorem constructYamlMap_duplicate_witness :
    constructYamlMap [MapEntry.direct (.str "k") ⟨1, 3⟩ (.int 1),
                      MapEntry.direct (.str "k") ⟨2, 3⟩ (.int 2)] =
      .error (.duplicateKey "k" ⟨2, 3⟩ (some ⟨1, 3⟩)) :=
  constructYamlMap_duplicate [MapEntry.direct (.str "k") ⟨1, 3⟩ (.int 1)] []
    (.str "k") (.str "k") ⟨1, 3⟩ ⟨2, 3⟩ (.int 1) (.int 2)
    ⟨[("k", Val.int 1)], [], [("k", some ⟨1, 3⟩)]⟩ (by rfl)
    (List.mem_singleton.2 rfl) rfl rfl

/-! ## The dumper (`ESPHomeDumper`): C9 float formatting, C4 redaction -/

/-- The module-level `_SECRET_VALUES` registry: `str(value)` mapped to
the secret name. -/
abbrev Registry := List (String × String)

/-- The `is_secret` helper: `_SECRET_VALUES[str(value)]`, with a missing
key meaning `None`. -/
def isSecret (reg : Registry) (v : Val) : Option String :=
  reg.lookup (pyStr v)

/-- A YAML representation node as produced by the dumper
(`represent_scalar` / `represent_sequence` / `represent_mapping`); the
optional style is the explicit scalar style (the block-literal bar for
lambdas). -/
inductive YNode where
  | scalar (tag : String) (value : String) (style : Option Char)
  | seqNode (items : List YNode)
  | mapNode (pairs : List (YNode × YNode))

/-- Python `value.replace("e", ".0e", 1)` on the character list of a
float repr: the first `e` is replaced by `.0e`. -/
def replOnceE : List Char → List Char
  | [] => []
  | c :: rest => if c = 'e' then '.' :: '0' :: 'e' :: rest else c :: replOnceE rest

/-- Python `str.lower()`. -/
def pyLower (s : String) : String :=
  ⟨s.data.map Char.toLower⟩

/-- The float-to-text logic of `represent_float`: `.nan` / `.inf` /
`-.inf` for the special values, otherwise the lowercased `repr` with
`.0` spliced in before the exponent marker when the repr contains no
decimal dot. -/
def floatText : PyFloat → String
  | .nan => ".nan"
  | .inf => ".inf"
  | .neginf => "-.inf"
  | .finite r =>
      let s := pyLower r
      if '.' ∉ s.data ∧ 'e' ∈ s.data then ⟨replOnceE s.data⟩ else s

/-- `ESPHomeDumper.represent_float`: secret values are redacted to a
`!secret` scalar; every other float renders through `floatText`. -/
def representFloat (reg : Registry) (f : PyFloat) : YNode :=
  match isSecret reg (.float f) with
  | some name => .scalar "!secret" name none
  | none => .scalar "tag:yaml.org,2002:float" (floatText f) none

/-- A character list contains a dot strictly before any exponent marker. -/
def dotBeforeE (l : List Char) : Prop :=
  'e' ∈ l → ∃ l₁ l₂, l = l₁ ++ '.' :: l₂ ∧ 'e' ∉ l₁

/-- Shape of the (lowercased) CPython `repr` of a finite float: a
mantissa free of exponent markers, optionally followed by an exponent
part introduced by a single `e` and containing no dot. -/
def finiteReprShape (s : String) : Prop :=
  ∃ mant expo, s.data = mant ++ expo ∧ 'e' ∉ mant ∧
    (expo = [] ∨ ∃ tail, expo = 'e' :: tail ∧ 'e' ∉ tail ∧ '.' ∉ tail)

theorem replOnceE_split (l : List Char) (h : 'e' ∈ l) :
    ∃ l₁ l₂, l = l₁ ++ 'e' :: l₂ ∧ 'e' ∉ l₁ ∧
      replOnceE l = l₁ ++ '.' :: '0' :: 'e' :: l₂ := by
  induction l with
  | nil => simp at h
  | cons c rest ih =>
      by_cases hc : c = 'e'
      · subst hc
        exact ⟨[], rest, rfl, by simp, by simp [replOnceE]⟩
      · have hr : 'e' ∈ rest := by
          rcases List.mem_cons.1 h with h₁ | h₂
          · exact absurd h₁.symm hc
          · exact h₂
        obtain ⟨l₁, l₂, h₁, h₂, h₃⟩ := ih hr
        refine ⟨c :: l₁, l₂, by simp [h₁], ?_, by simp [replOnceE, hc, h₃]⟩
        simp [List.mem_cons, h₂, Ne.symm hc]

/-- C9: a float that is not a registered secret is emitted with the
`!!float` tag; NaN renders as `.nan`, the infinities as `.inf` and
`-.inf`, and every finite float whose repr has the CPython float shape
renders with a decimal dot before any exponent marker. -/
theorem representFloat_spec (reg : Registry) (f : PyFloat) (r : String)
    (hsec : isSecret reg (.float f) = none)
    (hshape : finiteReprShape (pyLower r)) :
    representFloat reg f = .scalar "tag:yaml.org,2002:float" (floatText f) none ∧
    floatText .nan = ".nan" ∧ floatText .inf = ".inf" ∧
    floatText .neginf = "-.inf" ∧
    dotBeforeE (floatText (.finite r)).data := by
  refine ⟨by simp [representFloat, hsec], rfl, rfl, rfl, ?_⟩
  by_cases hcond : '.' ∉ (pyLower r).data ∧ 'e' ∈ (pyLower r).data
  · obtain ⟨l₁, l₂, _hsplit, hne, hrepl⟩ := replOnceE_split (pyLower r).data hcond.2
    intro _he
    refine ⟨l₁, '0' :: 'e' :: l₂, ?_, hne⟩
    simp only [floatText, hcond, if_pos, if_true]
    exact hrepl
  · have hres : (floatText (.finite r)).data = (pyLower r).data := by
      simp [floatText, hcond]
    rw [hres]
    intro he
    obtain ⟨mant, expo, hsplit, hmant, hx⟩ := hshape
    rcases hx with hnil | ⟨tail, hexpo, hetail, hdtail⟩
    · rw [hsplit, hnil, List.append_nil] at he
      exact absurd he hmant
    · have hdot : '.' ∈ (pyLower r).data := by
        by_contra hd
        exact hcond ⟨hd, he⟩
      have hdmant : '.' ∈ mant := by
        rw [hsplit, hexpo] at hdot
        rcases List.mem_append.1 hdot with h₁ | h₂
        · exact h₁
        · rcases List.mem_cons.1 h₂ with h₃ | h₄
          · exact absurd h₃ (by decide)
          · exact absurd h₄ hdtail
      obtain ⟨m₁, m₂, hm⟩ := List.append_of_mem hdmant
      refine ⟨m₁, m₂ ++ expo, ?_, ?_⟩
      · rw [hsplit, hm]; simp
      · intro hem
        exact hmant (hm ▸ List.mem_append_left _ hem)

/-- C9, witness: the float whose repr is `1e17` (the repr documented in
the source comment) is emitted as `1.0e17`. -/
theorem representFloat_spec_witness :
    representFloat [] (.finite "1e17") =
      .scalar "tag:yaml.org,2002:float" (floatText (.finite "1e17")) none ∧
    floatText (.finite "1e17") = "1.0e17" ∧
    dotBeforeE (floatText (.finite "1e17")).data := by
  have hshape : finiteReprShape (pyLower "1e17") :=
    ⟨['1'], ['e', '1', '7'], by decide, by decide,
     Or.inr ⟨['1', '7'], by decide, by decide, by decide⟩⟩
  have h := representFloat_spec [] (.finite "1e17") "1e17" rfl hshape
  exact ⟨h.1, by decide, h.2.2.2.2⟩

theorem sizeOf_snd_lt_of_mem_pairs {ps : List (String × Val)} {p : String × Val}
    (h : p ∈ ps) : sizeOf p.2 < sizeOf ps := by
  have h₁ := List.sizeOf_lt_of_mem h
  obtain ⟨a, b⟩ := p
  simp only [Prod.mk.sizeOf_spec] at h₁
  simp only []
  omega

theorem sizeOf_lt_of_mem_items {items : List Val} {v : Val}
    (h : v ∈ items) : sizeOf v < sizeOf items :=
  List.sizeOf_lt_of_mem h

/-- `represent_stringify` at a Python `str` (this is also how mapping
keys are represented, keys being strings after construction): secret
values are redacted, everything else becomes a `!!str` scalar. -/
def representStr (reg : Registry) (s : String) : YNode :=
  match reg.lookup s with
  | some name => .scalar "!secret" name none
  | none => .scalar "tag:yaml.org,2002:str" s none

/-- The dumper's `represent_data` dispatch over the representers
registered on `ESPHomeDumper`: `represent_bool`, `represent_int`,
`represent_float`, `represent_stringify` (str and the stringifiable
wrapper types), `represent_lambda`, the custom `represent_mapping`, the
sequence representer, and SafeDumper's null representer. -/
def representData (reg : Registry) : Val → YNode
  | .vnull => .scalar "tag:yaml.org,2002:null" "null" none
  | .bool b => .scalar "tag:yaml.org,2002:bool" (if b then "true" else "false") none
  | .int n =>
      match isSecret reg (.int n) with
      | some name => .scalar "!secret" name none
      | none => .scalar "tag:yaml.org,2002:int" (toString n) none
  | .float f => representFloat reg f
  | .str s => representStr reg s
  | .wrapped s => representStr reg s
  | .lam c =>
      match isSecret reg (.lam c) with
      | some name => .scalar "!secret" name none
      | none => .scalar "!lambda" c (some '|')
  | .map ps =>
      .mapNode (ps.attach.map fun x =>
        (representStr reg x.1.1, representData reg x.1.2))
  | .seq items => .seqNode (items.attach.map fun x => representData reg x.1)
  | .forList items => .seqNode (items.attach.map fun x => representData reg x.1)
  termination_by v => sizeOf v
  decreasing_by
  · have := sizeOf_snd_lt_of_mem_pairs x.2
    simp only [Val.map.sizeOf_spec]
    omega
  · have := sizeOf_lt_of_mem_items x.2
    simp only [Val.seq.sizeOf_spec]
    omega
  · have := sizeOf_lt_of_mem_items x.2
    simp only [Val.forList.sizeOf_spec]
    omega

/-- Occurrence of a value inside a tree: at the root, as a sequence
item (plain or `ForList`), as a mapping value, or — for strings — as a
mapping key. -/
inductive ValOccurs : Val → Val → Prop where
  | here (v : Val) : ValOccurs v v
  | inSeq {w x : Val} {items : List Val} :
      ValOccurs w x → x ∈ items → ValOccurs w (.seq items)
  | inForList {w x : Val} {items : List Val} :
      ValOccurs w x → x ∈ items → ValOccurs w (.forList items)
  | inMapVal {w x : Val} {k : String} {ps : List (String × Val)} :
      ValOccurs w x → (k, x) ∈ ps → ValOccurs w (.map ps)
  | inMapKey {k : String} {x : Val} {ps : List (String × Val)} :
      (k, x) ∈ ps → ValOccurs (.str k) (.map ps)

/-- Occurrence of a node inside a representation tree. -/
inductive NodeOccurs : YNode → YNode → Prop where
  | here (n : YNode) : NodeOccurs n n
  | inSeq {n m : YNode} {items : List YNode} :
      NodeOccurs n m → m ∈ items → NodeOccurs n (.seqNode items)
  | inMapVal {n m key : YNode} {ps : List (YNode × YNode)} :
      NodeOccurs n m → (key, m) ∈ ps → NodeOccurs n (.mapNode ps)
  | inMapKey {n m val : YNode} {ps : List (YNode × YNode)} :
      NodeOccurs n m → (m, val) ∈ ps → NodeOccurs n (.mapNode ps)

/-- The value kinds whose representer consults the secret registry:
ints, floats, strings, the stringifiable wrappers and lambdas (booleans,
null and containers are never redacted). -/
def secretCheckedKind : Val → Bool
  | .int _ => true
  | .float _ => true
  | .str _ => true
  | .wrapped _ => true
  | .lam _ => true
  | _ => false

/-! ## `construct_secret` and the per-load state (C4, C6) -/

/-- The module-level mutable state visible to one load: `_SECRET_VALUES`,
`_SECRET_CACHE`, and an instrumentation log of the paths handed to the
`read_config_file` collaborator. -/
structure LoadState where
  secretValues : Registry
  secretCache : List (String × Val)
  reads : List String

/-- The constant `SECRET_YAML`. -/
def SECRET_YAML : String := "secrets.yaml"

/-- `self._rel_path(...)`: joins the directory of the current document
with a file name. -/
def relPath (dir fname : String) : String :=
  dir ++ "/" ++ fname

/-- `_load_yaml_internal`: reads the file through the collaborator
(`fs`, recorded in the read log) and builds the document via
`_load_yaml_string`, whose falsy-root replacement is
`loadYamlStringResult`; the document construction itself is the
collaborator's output here. -/
def loadYamlInternal (fs : String → Option Val) (path : String)
    (st : LoadState) : Except String (Val × LoadState) :=
  let st₁ := { st with reads := st.reads ++ [path] }
  match fs path with
  | some doc => .ok (loadYamlStringResult doc, st₁)
  | none => .error ("I/O error: " ++ path)

/-- `ESPHomeLoader.construct_secret`: loads `secrets.yaml` from the
current document's directory with a fresh `_load_yaml_internal` call,
fails when the name is not defined there, and otherwise records
`_SECRET_VALUES[str(val)] = name` and returns the value. -/
def constructSecret (fs : String → Option Val) (dir name : String)
    (st : LoadState) : Except String (Val × LoadState) :=
  match loadYamlInternal fs (relPath dir SECRET_YAML) st with
  | .error e => .error e
  | .ok (secrets, st₁) =>
      match secrets with
      | .map ps =>
          match ps.lookup name with
          | none => .error ("Secret " ++ name ++ " not defined")
          | some val =>
              .ok (val,
                { st₁ with
                  secretValues := dUpdate st₁.secretValues (pyStr val) name })
      | _ => .error "secrets file must be a mapping"

/-- A tiny filesystem with one secrets document, used to exercise
repeated `!secret` lookups within one load. -/
def secFs : String → Option Val :=
  fun p =>
    if p == "cfg/secrets.yaml" then some (.map [("a", .int 1), ("b", .int 2)])
    else none

theorem lookup_dUpdate_self {κ α : Type} [BEq κ] [LawfulBEq κ]
    (l : List (κ × α)) (k : κ) (v : α) : (dUpdate l k v).lookup k = some v := by
  induction l with
  | nil => simp [dUpdate, List.lookup]
  | cons hd tl ih =>
      obtain ⟨k₀, v₀⟩ := hd
      by_cases hk : (k₀ == k) = true
      · simp [dUpdate, hk, List.lookup]
      · simp only [Bool.not_eq_true] at hk
        have hk₂ : (k == k₀) = false := by
          cases hkk : k == k₀
          · rfl
          · have he : k = k₀ := eq_of_beq hkk
            subst he
            simp at hk
        simp [dUpdate, hk, List.lookup, hk₂, ih]

theorem representData_secret_leaf (reg : Registry) (w : Val) (name : String)
    (hk : secretCheckedKind w = true) (hl : reg.lookup (pyStr w) = some name) :
    representData reg w = .scalar "!secret" name none := by
  cases w <;>
    simp_all [representData, representStr, representFloat, isSecret,
      secretCheckedKind, pyStr]

theorem representData_occurs (reg : Registry) {w t : Val} (name : String)
    (hk : secretCheckedKind w = true) (hl : reg.lookup (pyStr w) = some name)
    (hocc : ValOccurs w t) :
    NodeOccurs (.scalar "!secret" name none) (representData reg t) := by
  induction hocc with
  | here v =>
      rw [representData_secret_leaf reg v name hk hl]
      exact NodeOccurs.here _
  | inSeq hwx hmem ih =>
      rw [show representData reg (.seq _) = _ from by rw [representData]]
      exact NodeOccurs.inSeq (ih hk hl)
        (List.mem_map_of_mem _ (List.mem_attach _ ⟨_, hmem⟩))
  | inForList hwx hmem ih =>
      rw [show representData reg (.forList _) = _ from by rw [representData]]
      exact NodeOccurs.inSeq (ih hk hl)
        (List.mem_map_of_mem _ (List.mem_attach _ ⟨_, hmem⟩))
  | inMapVal hwx hmem ih =>
      rw [show representData reg (.map _) = _ from by rw [representData]]
      exact NodeOccurs.inMapVal (ih hk hl)
        (List.mem_map_of_mem _ (List.mem_attach _ ⟨_, hmem⟩))
  | inMapKey hmem =>
      rename_i k x ps
      rw [show representData reg (.map _) = _ from by rw [representData]]
      have hkey : representStr reg k = YNode.scalar "!secret" name none := by
        simp only [pyStr] at hl
        simp [representStr, hl]
      refine NodeOccurs.inMapKey ?_
        (List.mem_map_of_mem _ (List.mem_attach _ ⟨_, hmem⟩))
      rw [hkey]
      exact NodeOccurs.here _

theorem constructSecret_ok_state (fs : String → Option Val) (dir name : String)
    (st st' : LoadState) (v : Val)
    (h : constructSecret fs dir name st = .ok (v, st')) :
    ∃ doc ps, fs (relPath dir SECRET_YAML) = some doc ∧
      loadYamlStringResult doc = .map ps ∧ ps.lookup name = some v ∧
      st' = { secretValues := dUpdate st.secretValues (pyStr v) name,
              secretCache := st.secretCache,
              reads := st.reads ++ [relPath dir SECRET_YAML] } := by
  unfold constructSecret loadYamlInternal at h
  cases hfs : fs (relPath dir SECRET_YAML) with
  | none => rw [hfs] at h; simp at h
  | some doc =>
      rw [hfs] at h
      simp only [] at h
      cases hdoc : loadYamlStringResult doc
      case map ps =>
        rw [hdoc] at h
        simp only [] at h
        cases hlk : ps.lookup name with
        | none => rw [hlk] at h; simp at h
        | some val =>
            rw [hlk] at h
            simp only [Except.ok.injEq, Prod.mk.injEq] at h
            obtain ⟨hv, hst⟩ := h
            subst hv
            exact ⟨doc, ps, rfl, hdoc, hlk, hst.symm⟩
      all_goals (rw [hdoc] at h; simp at h)

/-- C4: a successful `!secret NAME` resolution leaves the secret
registry mapping the resolved value (by its `str` form) to NAME, and
dumping any tree in which that literal value occurs — as a string,
integer, float, lambda or stringified wrapper, whether as a sequence
item, a mapping value or a mapping key — emits the scalar
`!secret NAME` in place of the raw value. -/
theorem constructSecret_redacts (fs : String → Option Val) (dir name : String)
    (st st' : LoadState) (v w t : Val)
    (h : constructSecret fs dir name st = .ok (v, st'))
    (hk : secretCheckedKind w = true) (hw : pyStr w = pyStr v)
    (hocc : ValOccurs w t) :
    st'.secretValues.lookup (pyStr v) = some name ∧
    NodeOccurs (.scalar "!secret" name none) (representData st'.secretValues t) := by
  obtain ⟨doc, ps, _, _, _, hst⟩ := constructSecret_ok_state fs dir name st st' v h
  have hreg : st'.secretValues.lookup (pyStr v) = some name := by
    rw [hst]
    exact lookup_dUpdate_self _ _ _
  exact ⟨hreg, representData_occurs _ name hk (by rw [hw]; exact hreg) hocc⟩

/-- C4, witness: after resolving `!secret wifi` to the string
`hunter2`, dumping a mapping containing that string as a value emits
`!secret wifi` there. -/
theorem constructSecret_redacts_witness :
    (⟨[("hunter2", "wifi")], [], ["cfg/secrets.yaml"]⟩ :
        LoadState).secretValues.lookup "hunter2" = some "wifi" ∧
    NodeOccurs (.scalar "!secret" "wifi" none)
      (representData [("hunter2", "wifi")]
        (.map [("password", .str "hunter2")])) :=
  constructSecret_redacts
    (fun p => if p == "cfg/secrets.yaml"
      then some (.map [("wifi", .str "hunter2")]) else none)
    "cfg" "wifi" ⟨[], [], []⟩ ⟨[("hunter2", "wifi")], [], ["cfg/secrets.yaml"]⟩
    (.str "hunter2") (.str "hunter2") (.map [("password", .str "hunter2")])
    (by rfl) rfl rfl
    (ValOccurs.inMapVal (ValOccurs.here _) (List.mem_singleton.2 rfl))

/-- C6, counterexample: within one load, two `!secret` lookups that
resolve against the same `secrets.yaml` document consult the
file-reader collaborator twice — the claimed at-most-one read per path
does not hold, because `_SECRET_CACHE` is never consulted. -/
theorem constructSecret_no_cache_counterexample :
    constructSecret secFs "cfg" "a" ⟨[], [], []⟩ =
      .ok (.int 1, ⟨[("1", "a")], [], ["cfg/secrets.yaml"]⟩) ∧
    constructSecret secFs "cfg" "b" ⟨[("1", "a")], [], ["cfg/secrets.yaml"]⟩ =
      .ok (.int 2,
        ⟨[("1", "a"), ("2", "b")], [],
         ["cfg/secrets.yaml", "cfg/secrets.yaml"]⟩) ∧
    ¬ ((["cfg/secrets.yaml", "cfg/secrets.yaml"] :
          List String).count "cfg/secrets.yaml" ≤ 1) :=
  ⟨rfl, rfl, by decide⟩

/-- C6 (amended): `_SECRET_CACHE` exists and is cleared at the start of
a load, but `construct_secret` never consults or populates it: every
successful `!secret` lookup leaves the cache untouched and issues
exactly one fresh read of the document's `secrets.yaml` through the
file-reader collaborator, so n lookups cause n reads. -/
theorem constructSecret_fresh_read (fs : String → Option Val) (dir name : String)
    (st st' : LoadState) (v : Val)
    (h : constructSecret fs dir name st = .ok (v, st')) :
    st'.secretCache = st.secretCache ∧
    st'.reads = st.reads ++ [relPath dir SECRET_YAML] := by
  obtain ⟨doc, ps, _, _, _, hst⟩ := constructSecret_ok_state fs dir name st st' v h
  rw [hst]
  exact ⟨rfl, rfl⟩

/-- C6, witness for the amended theorem: one concrete `!secret` lookup
leaves the cache empty and logs exactly one read. -/
theorem constructSecret_fresh_read_witness :
    (⟨[("1", "a")], [], ["cfg/secrets.yaml"]⟩ : LoadState).secretCache =
      (⟨[], [], []⟩ : LoadState).secretCache ∧
    (⟨[("1", "a")], [], ["cfg/secrets.yaml"]⟩ : LoadState).reads =
      (⟨[], [], []⟩ : LoadState).reads ++ [relPath "cfg" SECRET_YAML] :=
  constructSecret_fresh_read secFs "cfg" "a" ⟨[], [], []⟩
    ⟨[("1", "a")], [], ["cfg/secrets.yaml"]⟩ (.int 1) (by rfl)

/-! ## `construct_for` and the variable environment (C5) -/

/-- The loader's variable environment `self.vars`. -/
abbrev Env := List (String × Val)

/-- The iteration loop of `ESPHomeLoader.construct_for` (after the
items/var/repeat extraction and validation): each iteration installs a
shallow copy of the saved environment extended with the loop binding as
`self.vars` and constructs the repeat node.  `ev` stands for
`construct_object(deepcopy(repeat))`: it receives the current
environment and returns the constructed value together with the
environment the construction left behind, or — when it raises — the
error together with the environment current at the raise.  There is no
try/finally, so an error propagates with whatever environment the
failing construction left. -/
def forLoop (ev : Env → Except (String × Env) (Val × Env))
    (varname : String) (oldvars : Env) :
    List Val → Except (String × Env) (List Val)
  | [] => .ok []
  | i :: rest =>
      match ev (dUpdate oldvars varname i) with
      | .error e => .error e
      | .ok (obj, _) =>
          match forLoop ev varname oldvars rest with
          | .error e => .error e
          | .ok objs => .ok (obj :: objs)

/-- `ESPHomeLoader.construct_for`: saves `self.vars`, runs the loop, and
on normal return resets `self.vars = oldvars` and wraps the results in
`ForList`; on error the exception propagates with the environment left
by the failing iteration. -/
def constructFor (ev : Env → Except (String × Env) (Val × Env))
    (varname : String) (items : List Val) (oldvars : Env) :
    Except (String × Env) (Val × Env) :=
  match forLoop ev varname oldvars items with
  | .ok objs => .ok (.forList objs, oldvars)
  | .error e => .error e

theorem forLoop_ok_of (ev : Env → Except (String × Env) (Val × Env))
    (varname : String) (oldvars : Env) (items : List Val)
    (f : Val → Val) (g : Val → Env)
    (h : ∀ i ∈ items, ev (dUpdate oldvars varname i) = .ok (f i, g i)) :
    forLoop ev varname oldvars items = .ok (items.map f) := by
  induction items with
  | nil => rfl
  | cons i rest ih =>
      have hi := h i (List.mem_cons_self i rest)
      have hrest := ih fun j hj => h j (List.mem_cons_of_mem i hj)
      simp [forLoop, hi, hrest]

theorem forLoop_error_of (ev : Env → Except (String × Env) (Val × Env))
    (varname : String) (oldvars : Env) (pre rest : List Val) (i₀ : Val)
    (f : Val → Val) (g : Val → Env) (err : String) (envE : Env)
    (h : ∀ i ∈ pre, ev (dUpdate oldvars varname i) = .ok (f i, g i))
    (he : ev (dUpdate oldvars varname i₀) = .error (err, envE)) :
    forLoop ev varname oldvars (pre ++ i₀ :: rest) = .error (err, envE) := by
  induction pre with
  | nil => simp [forLoop, he]
  | cons i tl ih =>
      have hi := h i (List.mem_cons_self i tl)
      have htl := ih fun j hj => h j (List.mem_cons_of_mem i hj)
      simp [forLoop, hi, htl]

/-- C5, counterexample: when the construction of the repeat node raises,
`construct_for` propagates the error without restoring the saved
environment — the loader's current environment remains the failing
iteration's child environment, not the prior environment. -/
theorem constructFor_error_env_not_restored :
    constructFor (fun e => .error ("boom", e)) "item" [.int 1] [] =
      .error ("boom", [("item", .int 1)]) ∧
    ([("item", Val.int 1)] : Env) ≠ ([] : Env) :=
  ⟨rfl, by simp⟩

/-- C5 (amended): each `!for` iteration evaluates the repeat node in a
shallow copy of the saved environment extended with the loop binding,
so whatever the iteration does to its environment never affects the
parent; on normal return the prior environment is restored as the
loader's current environment, but on error propagation it is not — the
error carries the environment left by the failing construction. -/
theorem constructFor_env_spec (ev : Env → Except (String × Env) (Val × Env))
    (varname : String) (oldvars : Env) (items pre rest : List Val) (i₀ : Val)
    (f : Val → Val) (g : Val → Env) (err : String) (envE : Env) :
    ((∀ i ∈ items, ev (dUpdate oldvars varname i) = .ok (f i, g i)) →
       constructFor ev varname items oldvars =
         .ok (.forList (items.map f), oldvars)) ∧
    ((∀ i ∈ pre, ev (dUpdate oldvars varname i) = .ok (f i, g i)) →
       ev (dUpdate oldvars varname i₀) = .error (err, envE) →
       constructFor ev varname (pre ++ i₀ :: rest) oldvars =
         .error (err, envE)) := by
  constructor
  · intro h
    rw [constructFor, forLoop_ok_of ev varname oldvars items f g h]
  · intro h he
    rw [constructFor, forLoop_error_of ev varname oldvars pre rest i₀ f g err envE h he]

/-- C5, witness for the amended theorem: a successful loop restores the
saved environment, and a failing iteration propagates the child
environment. -/
theorem constructFor_env_spec_witness :
    constructFor (fun e => .ok (.int 5, e)) "item" [.int 1] [] =
      .ok (.forList [.int 5], []) ∧
    constructFor (fun e => .error ("later", e)) "item" ([] ++ .int 2 :: []) [] =
      .error ("later", [("item", .int 2)]) :=
  ⟨(constructFor_env_spec (fun e => .ok (.int 5, e)) "item" [] [.int 1] [] []
      (.int 0) (fun _ => .int 5) (fun i => dUpdate [] "item" i) "x" []).1
      (fun i _ => rfl),
   (constructFor_env_spec (fun e => .error ("later", e)) "item" [] [] [] []
      (.int 2) (fun _ => .vnull) (fun _ => []) "later" [("item", .int 2)]).2
      (fun i hi => absurd hi (List.not_mem_nil i)) rfl⟩

/-! ## `load_vars` substitutions preload (C7) -/

/-- One token of a Python string that may contain template expressions.
Modelled from the spec: the template-engine collaborator
(`esphome.jinja.expand_str`, outside these sources) recognises variable
references inside a string, so a string is modelled as the list of its
literal runs and variable references. -/
inductive JPart where
  | lit (s : String)
  | var (name : String)

/-- A substitution value as `load_vars` sees it: a Python string
(possibly containing template parts) or a non-string YAML value. -/
inductive SubVal where
  | s (parts : List JPart)
  | other (v : Val)

/-- The raw text of a template: what the Python string literally
contains.  A stored string value is rendered verbatim when referenced —
the engine does not re-expand it. -/
def rawText : List JPart → String
  | [] => ""
  | .lit s :: rest => s ++ rawText rest
  | .var n :: rest => "\x7b\x7b " ++ n ++ " \x7d\x7d" ++ rawText rest

/-- Rendering of a substitution value interpolated by a reference:
strings render as their text, other values through `str`. -/
def renderSub : SubVal → String
  | .s parts => rawText parts
  | .other v => pyStr v

/-- Modelled from the spec: the template-engine collaborator
`expand_str` (in `esphome/jinja.py`, outside these sources).  Given a
string and a variable map it returns the expanded string; literal runs
are kept, a variable reference is replaced by the rendering of the
bound value, and a reference to an unbound name is the
undefined-variable error. -/
def expandStr : List JPart → List (String × SubVal) → Except String String
  | [], _ => .ok ""
  | .lit s :: rest, env =>
      match expandStr rest env with
      | .ok r => .ok (s ++ r)
      | .error e => .error e
  | .var n :: rest, env =>
      match env.lookup n with
      | some v =>
          match expandStr rest env with
          | .ok r => .ok (renderSub v ++ r)
          | .error e => .error e
      | none => .error ("Variable is undefined: " ++ n)

/-- The evaluation loop of `load_vars`: substitutions are processed in
declaration order against the variables collected so far (`vars`); a
string value is expanded (expansion failures are re-raised as
`cv.Invalid`), a non-string value is stored as it is. -/
def processSubs : List (String × SubVal) → List (String × SubVal) →
    Except String (List (String × SubVal))
  | [], vars => .ok vars
  | (k, .s parts) :: rest, vars =>
      match expandStr parts vars with
      | .ok r => processSubs rest (dUpdate vars k (.s [.lit r]))
      | .error e =>
          .error ("Error in substitution with name " ++ k ++ ": " ++ e)
  | (k, .other v) :: rest, vars =>
      processSubs rest (dUpdate vars k (.other v))

/-- Python `{**a, **b}`: the keys of `a` in order with their values
overridden by `b` where present, followed by the keys only in `b` in
their order. -/
def pyDictMerge (a b : List (String × SubVal)) : List (String × SubVal) :=
  b.foldl (fun acc kv => dUpdate acc kv.1 kv.2) a

/-- `load_vars`: the file-provided substitutions overridden by the
command-line overrides (each override already parsed as a small YAML
document with expansion disabled, and both mappings already through the
`validate_vars` collaborator), evaluated in declaration order starting
from an empty environment. -/
def loadVars (fileSubs overrides : List (String × SubVal)) :
    Except String (List (String × SubVal)) :=
  processSubs (pyDictMerge fileSubs overrides) []

theorem lookup_dUpdate_ne {κ α : Type} [BEq κ] [LawfulBEq κ]
    (l : List (κ × α)) (k k₀ : κ) (v₀ : α) (h : (k == k₀) = false) :
    (dUpdate l k₀ v₀).lookup k = l.lookup k := by
  induction l with
  | nil => simp [dUpdate, List.lookup, h]
  | cons hd tl ih =>
      obtain ⟨k₁, v₁⟩ := hd
      by_cases hk : (k₁ == k₀) = true
      · have he : k₁ = k₀ := eq_of_beq hk
        subst he
        have hk₂ : (k == k₁) = false := h
        simp [dUpdate, List.lookup, hk₂]
      · simp only [Bool.not_eq_true] at hk
        simp only [dUpdate, hk, Bool.false_eq_true, if_false, ite_false]
        by_cases hk₃ : (k == k₁) = true
        · simp [List.lookup, hk₃]
        · simp only [Bool.not_eq_true] at hk₃
          simp [List.lookup, hk₃, ih]

theorem lookup_pyDictMerge (a b : List (String × SubVal)) (k : String)
    (h : (b.map Prod.fst).Nodup) :
    (pyDictMerge a b).lookup k = ((b.lookup k).or (a.lookup k)) := by
  induction b generalizing a with
  | nil => simp [pyDictMerge, List.lookup]
  | cons hd tl ih =>
      obtain ⟨k₀, v₀⟩ := hd
      simp only [List.map_cons, List.nodup_cons] at h
      have step : pyDictMerge a ((k₀, v₀) :: tl) = pyDictMerge (dUpdate a k₀ v₀) tl := rfl
      rw [step, ih _ h.2]
      by_cases hk : (k == k₀) = true
      · have he : k = k₀ := eq_of_beq hk
        subst he
        have htl : tl.lookup k = none := by
          rw [lookup_eq_none_iff]
          exact h.1
        simp [List.lookup, htl, lookup_dUpdate_self]
      · simp only [Bool.not_eq_true] at hk
        simp [List.lookup, hk, lookup_dUpdate_ne _ _ _ _ hk]

theorem processSubs_append (xs ys vars : List (String × SubVal)) :
    processSubs (xs ++ ys) vars =
      match processSubs xs vars with
      | .ok env₁ => processSubs ys env₁
      | .error e => .error e := by
  induction xs generalizing vars with
  | nil => rfl
  | cons hd tl ih =>
      obtain ⟨k, sv⟩ := hd
      cases sv with
      | s parts =>
          simp only [List.cons_append, processSubs]
          cases expandStr parts vars with
          | ok r => exact ih _
          | error e => rfl
      | other v =>
          simp only [List.cons_append, processSubs]
          exact ih _

theorem expandStr_error_of_unbound (parts : List JPart)
    (env : List (String × SubVal)) (n : String)
    (hmem : JPart.var n ∈ parts) (hnone : env.lookup n = none) :
    ∃ msg, expandStr parts env = .error msg := by
  induction parts with
  | nil => simp at hmem
  | cons hd tl ih =>
      cases hd with
      | lit s =>
          have hmem₂ : JPart.var n ∈ tl := by
            rcases List.mem_cons.1 hmem with h₁ | h₂
            · cases h₁
            · exact h₂
          obtain ⟨msg, hmsg⟩ := ih hmem₂
          exact ⟨msg, by simp [expandStr, hmsg]⟩
      | var m =>
          cases hlm : env.lookup m with
          | none => exact ⟨"Variable is undefined: " ++ m, by simp [expandStr, hlm]⟩
          | some v =>
              have hmem₂ : JPart.var n ∈ tl := by
                rcases List.mem_cons.1 hmem with h₁ | h₂
                · cases h₁
                  rw [hlm] at hnone
                  cases hnone
                · exact h₂
              obtain ⟨msg, hmsg⟩ := ih hmem₂
              exact ⟨msg, by simp [expandStr, hlm, hmsg]⟩

/-- C7: `load_vars` merges the command-line overrides over the
file-provided substitutions (per key, the override wins) and evaluates
the merged substitutions in declaration order: a string value is
expanded against the partial environment of the substitutions evaluated
so far, so a later substitution referencing an earlier one resolves to
the earlier one's evaluated value; a reference to a not-yet-declared
substitution is an error; and a non-string value is adopted verbatim. -/
theorem loadVars_spec (a b : List (String × SubVal)) (k k₁ k₂ n : String)
    (v : SubVal) (xs ys rest : List (String × SubVal))
    (env : List (String × SubVal)) (parts : List JPart) (w : Val) :
    loadVars a b = processSubs (pyDictMerge a b) [] ∧
    ((b.map Prod.fst).Nodup →
      (pyDictMerge a b).lookup k = ((b.lookup k).or (a.lookup k))) ∧
    (processSubs (xs ++ ys) [] =
      match processSubs xs [] with
      | .ok env₁ => processSubs ys env₁
      | .error e => .error e) ∧
    (env.lookup k₁ = some v →
      processSubs ((k₂, .s [.var k₁]) :: rest) env =
        processSubs rest (dUpdate env k₂ (.s [.lit (renderSub v)]))) ∧
    (JPart.var n ∈ parts → env.lookup n = none →
      ∃ msg, processSubs ((k₂, .s parts) :: rest) env = .error msg) ∧
    processSubs ((k₂, .other w) :: rest) env =
      processSubs rest (dUpdate env k₂ (.other w)) := by
  refine ⟨rfl, fun h => lookup_pyDictMerge a b k h, processSubs_append xs ys [],
    fun h => ?_, fun hmem hnone => ?_, rfl⟩
  · simp [processSubs, expandStr, h]
  · obtain ⟨msg, hmsg⟩ := expandStr_error_of_unbound parts env n hmem hnone
    exact ⟨"Error in substitution with name " ++ k₂ ++ ": " ++ msg,
      by simp [processSubs, hmsg]⟩

/-- C7, witness: the override wins for a shared key, a later
substitution referencing an earlier one expands with the earlier
evaluated value, and a reference to an undeclared name is an error. -/
theorem loadVars_spec_witness :
    (pyDictMerge [("x", SubVal.other (.int 1))]
        [("x", SubVal.other (.int 2))]).lookup "x" =
      (((([("x", SubVal.other (.int 2))]) :
          List (String × SubVal)).lookup "x").or
        ((([("x", SubVal.other (.int 1))]) :
          List (String × SubVal)).lookup "x")) ∧
    processSubs [("b", SubVal.s [.var "a"])] [("a", SubVal.s [.lit "1"])] =
      processSubs [] (dUpdate [("a", SubVal.s [.lit "1"])] "b"
        (.s [.lit (renderSub (SubVal.s [.lit "1"]))])) ∧
    (∃ msg, processSubs [("b", SubVal.s [.var "c"])]
        [("a", SubVal.s [.lit "1"])] = .error msg) := by
  have h := loadVars_spec [("x", SubVal.other (.int 1))]
    [("x", SubVal.other (.int 2))] "x" "a" "b" "c" (SubVal.s [.lit "1"])
    [] [] [] [("a", SubVal.s [.lit "1"])] [.var "c"] (.int 7)
  exact ⟨h.2.1 (by simp), h.2.2.2.1 rfl,
    h.2.2.2.2.1 (List.mem_singleton.2 rfl) rfl⟩

/-! ## `construct_merge` deep merge (C3) -/

/-- A key of the reconciliation index in the sequence branch of the
`merge` helper: `str(item["id"])` for mappings with an `id` field, the
positional counter for everything else. -/
inductive MKey where
  | kid (s : String)
  | kpos (n : Nat)
  deriving DecidableEq, Repr

theorem mkey_beq_kid (a b : String) : (MKey.kid a == MKey.kid b) = (a == b) := by
  by_cases h : a = b
  · subst h; simp
  · rw [beq_eq_false_iff_ne.2 (by simp [h]), beq_eq_false_iff_ne.2 h]

theorem mkey_beq_kpos (m n : Nat) : (MKey.kpos m == MKey.kpos n) = (m == n) := by
  by_cases h : m = n
  · subst h; simp
  · rw [beq_eq_false_iff_ne.2 (by simp [h]), beq_eq_false_iff_ne.2 h]

theorem mkey_beq_kid_kpos (a : String) (n : Nat) :
    (MKey.kid a == MKey.kpos n) = false :=
  beq_eq_false_iff_ne.2 (by simp)

theorem mkey_beq_kpos_kid (n : Nat) (a : String) :
    (MKey.kpos n == MKey.kid a) = false :=
  beq_eq_false_iff_ne.2 (by simp)

/-- The identity key of a sequence item: defined exactly when the item
is a mapping containing an `id` entry (`CONF_ID` is the string `id`),
as `str(item["id"])`. -/
def idKeyOf : Val → Option String
  | .map ps => (ps.lookup "id").map pyStr
  | _ => none

/-- Builds `index` over the new sequence: each item is keyed by its
identity key, or by the positional counter (incremented only for
non-identity items); ordered-dict assignment replaces in place on a key
collision. -/
def seqIndexGo : List Val → Nat → List (MKey × Val) → List (MKey × Val)
  | [], _, acc => acc
  | item :: rest, pos, acc =>
      match idKeyOf item with
      | some s => seqIndexGo rest pos (dUpdate acc (.kid s) item)
      | none => seqIndexGo rest (pos + 1) (dUpdate acc (.kpos pos) item)

/-- The index of a new sequence, as `construct_merge` builds it. -/
def seqIndex (items : List Val) : List (MKey × Val) :=
  seqIndexGo items 0 []

/-- The old-sequence loop of the sequence branch with the recursive
merge calls deferred: an old item that is a mapping whose `id` is found
in the index is paired with its new counterpart, which is deleted from
the index; every other old item is paired with `none`.  Returns the
pairs in old order together with the remaining index. -/
def seqPair : List Val → List (MKey × Val) →
    List (Val × Option Val) × List (MKey × Val)
  | [], idx => ([], idx)
  | item :: rest, idx =>
      match idKeyOf item with
      | some s =>
          match idx.lookup (.kid s) with
          | some nv =>
              let pr := seqPair rest (eraseKey idx (.kid s))
              ((item, some nv) :: pr.1, pr.2)
          | none =>
              let pr := seqPair rest idx
              ((item, none) :: pr.1, pr.2)
      | none =>
          let pr := seqPair rest idx
          ((item, none) :: pr.1, pr.2)

theorem mem_of_mem_seqIndexGo {items : List Val} {pos : Nat}
    {acc : List (MKey × Val)} {p : MKey × Val}
    (h : p ∈ seqIndexGo items pos acc) : p ∈ acc ∨ p.2 ∈ items := by
  induction items generalizing pos acc with
  | nil => simp only [seqIndexGo] at h; exact Or.inl h
  | cons item rest ih =>
      cases hk : idKeyOf item with
      | some s =>
          rw [seqIndexGo, hk] at h
          rcases ih h with h₁ | h₂
          · rcases mem_of_mem_dUpdate h₁ with h₃ | h₃
            · exact Or.inl h₃
            · right
              rw [h₃]
              exact List.mem_cons_self _ _
          · exact Or.inr (List.mem_cons_of_mem _ h₂)
      | none =>
          rw [seqIndexGo, hk] at h
          rcases ih h with h₁ | h₂
          · rcases mem_of_mem_dUpdate h₁ with h₃ | h₃
            · exact Or.inl h₃
            · right
              rw [h₃]
              exact List.mem_cons_self _ _
          · exact Or.inr (List.mem_cons_of_mem _ h₂)

theorem seqPair_counterpart_mem {old : List Val} {idx : List (MKey × Val)}
    {it nv : Val} (h : (it, some nv) ∈ (seqPair old idx).1) :
    ∃ k, (k, nv) ∈ idx := by
  induction old generalizing idx with
  | nil => simp [seqPair] at h
  | cons item rest ih =>
      cases hk : idKeyOf item with
      | some s =>
          cases hlk : idx.lookup (.kid s) with
          | some nv₀ =>
              rw [seqPair, hk] at h
              simp only [] at h
              rw [hlk] at h
              simp only [] at h
              rcases List.mem_cons.1 h with h₁ | h₂
              · have he₂ : some nv = some nv₀ := congrArg Prod.snd h₁
                cases he₂
                exact ⟨.kid s, mem_of_lookup_eq_some hlk⟩
              · obtain ⟨k, hik⟩ := ih h₂
                exact ⟨k, mem_of_mem_eraseKey hik⟩
          | none =>
              rw [seqPair, hk] at h
              simp only [] at h
              rw [hlk] at h
              simp only [] at h
              rcases List.mem_cons.1 h with h₁ | h₂
              · cases h₁
              · exact ih h₂
      | none =>
          rw [seqPair, hk] at h
          simp only [] at h
          rcases List.mem_cons.1 h with h₁ | h₂
          · cases h₁
          · exact ih h₂

theorem seqPair_counterpart_size {old nitems : List Val} {it nv : Val}
    (h : (it, some nv) ∈ (seqPair old (seqIndex nitems)).1) :
    sizeOf nv < sizeOf nitems := by
  obtain ⟨k, hk⟩ := seqPair_counterpart_mem h
  rcases mem_of_mem_seqIndexGo hk with h₁ | h₂
  · simp at h₁
  · exact List.sizeOf_lt_of_mem h₂

/-- The recursive `merge` helper inside `construct_merge`:
mapping over mapping merges per key (keys of the new mapping override
or recursively merge, new keys are appended); a new mapping over a
non-mapping replaces it; list over list reconciles through the index
(`seqIndexGo`) and the old loop (`seqPair`), appending the remaining
index values; a new list over a non-list replaces it; a new `None`
keeps the old value; any other new value replaces the old. -/
def mergeVal : Val → Val → Val
  | old, .map nps =>
      match old with
      | .map ops =>
          .map (nps.attach.foldl
            (fun res x =>
              dUpdate res x.1.1
                (match ops.lookup x.1.1 with
                 | some ov => mergeVal ov x.1.2
                 | none => x.1.2))
            ops)
      | _ => .map nps
  | old, .seq nitems =>
      match asListItems old with
      | some oitems =>
          .seq (((seqPair oitems (seqIndex nitems)).1.attach.map fun x =>
                  match hx : x.1.2 with
                  | some nv => mergeVal x.1.1 nv
                  | none => x.1.1)
                ++ (seqPair oitems (seqIndex nitems)).2.map Prod.snd)
      | none => .seq nitems
  | old, .forList nitems =>
      match asListItems old with
      | some oitems =>
          .seq (((seqPair oitems (seqIndex nitems)).1.attach.map fun x =>
                  match hx : x.1.2 with
                  | some nv => mergeVal x.1.1 nv
                  | none => x.1.1)
                ++ (seqPair oitems (seqIndex nitems)).2.map Prod.snd)
      | none => .forList nitems
  | old, .vnull => old
  | _, new => new
  termination_by old new => sizeOf new
  decreasing_by
  · have := sizeOf_snd_lt_of_mem_pairs x.2
    simp only [Val.map.sizeOf_spec]
    omega
  · have hmem : (x.1.1, some nv) ∈ (seqPair oitems (seqIndex nitems)).1 := by
      have hm := x.2
      rwa [show x.1 = (x.1.1, x.1.2) from rfl, hx] at hm
    have := seqPair_counterpart_size hmem
    simp only [Val.seq.sizeOf_spec]
    omega
  · have hmem : (x.1.1, some nv) ∈ (seqPair oitems (seqIndex nitems)).1 := by
      have hm := x.2
      rwa [show x.1 = (x.1.1, x.1.2) from rfl, hx] at hm
    have := seqPair_counterpart_size hmem
    simp only [Val.forList.sizeOf_spec]
    omega

/-- `ESPHomeLoader.construct_merge`: the `!merge` payload (a sequence of
already-constructed values) folded left through `merge`, starting from
`None`. -/
def constructMerge (mergelist : List Val) : Val :=
  mergelist.foldl (fun value obj => mergeVal value obj) .vnull

/-- In-order labelling of a sequence by identity key or positional
rank, without the in-place-update behaviour of the ordered dict; for a
sequence whose identity keys are distinct this is exactly the index the
code builds. -/
def seqLabel : List Val → Nat → List (MKey × Val)
  | [], _ => []
  | item :: rest, pos =>
      match idKeyOf item with
      | some s => (.kid s, item) :: seqLabel rest pos
      | none => (.kpos pos, item) :: seqLabel rest (pos + 1)

/-- The first item of `l` that is a mapping with identity key `k`. -/
def findById (k : String) (l : List Val) : Option Val :=
  l.find? fun it => idKeyOf it == some k

/-- The identity keys of a sequence, in order. -/
def idsOf (l : List Val) : List String :=
  l.filterMap idKeyOf

/-- The sequence-reconciliation rule in the words of claim C3, for
comparison with the code: items of both sequences are keyed — mappings
with an `id` field by that id, all other items by their positional
rank — and the result is the old sequence with each identity-matched
item replaced by its deep merge against the new counterpart, followed
by the unmatched new items in the new order. -/
def claimSeqMerge (old new : List Val) : List Val :=
  ((seqLabel old 0).map fun e =>
    match (seqLabel new 0).lookup e.1 with
    | some nv => mergeVal e.2 nv
    | none => e.2) ++
  ((seqLabel new 0).filter fun e =>
    ((seqLabel old 0).lookup e.1).isNone).map Prod.snd

/-- C3, counterexample: positional-rank keys never reconcile anything.
For `!merge [[1], [2]]` the code appends the new item (result
`[1, 2]`), while the claim's rule — rank 0 of the old sequence matches
rank 0 of the new — would replace, yielding `[2]`. -/
theorem constructMerge_positional_counterexample :
    constructMerge [.seq [.int 1], .seq [.int 2]] = .seq [.int 1, .int 2] ∧
    claimSeqMerge [.int 1] [.int 2] = [.int 2] ∧
    (Val.seq [.int 1, .int 2]) ≠ (Val.seq [.int 2]) := by
  refine ⟨?_, ?_, by simp⟩ <;>
    simp +decide [constructMerge, claimSeqMerge, mergeVal, seqPair, seqIndex,
      seqIndexGo, seqLabel, dUpdate, eraseKey, asListItems, idKeyOf,
      List.attach, List.attachWith, List.pmap, List.lookup, pyStr,
      mkey_beq_kid, mkey_beq_kpos, mkey_beq_kid_kpos, mkey_beq_kpos_kid]

theorem obeq_some_some {α : Type} [BEq α] (a b : α) :
    ((some a : Option α) == some b) = (a == b) := rfl

theorem obeq_none_some {α : Type} [BEq α] (b : α) :
    ((none : Option α) == some b) = false := rfl

theorem idsOf_cons_some {item : Val} {rest : List Val} {s : String}
    (hk : idKeyOf item = some s) : idsOf (item :: rest) = s :: idsOf rest := by
  simp [idsOf, List.filterMap_cons, hk]

theorem idsOf_cons_none {item : Val} {rest : List Val}
    (hk : idKeyOf item = none) : idsOf (item :: rest) = idsOf rest := by
  simp [idsOf, List.filterMap_cons, hk]

theorem seqIndexGo_eq_label (items : List Val) (pos : Nat)
    (acc : List (MKey × Val))
    (hid : ∀ s ∈ idsOf items, (MKey.kid s) ∉ acc.map Prod.fst)
    (hpos : ∀ q, (MKey.kpos q) ∈ acc.map Prod.fst → q < pos)
    (hnd : (idsOf items).Nodup) :
    seqIndexGo items pos acc = acc ++ seqLabel items pos := by
  induction items generalizing pos acc with
  | nil => simp [seqIndexGo, seqLabel]
  | cons item rest ih =>
      cases hk : idKeyOf item with
      | some s =>
          rw [idsOf_cons_some hk] at hid hnd
          rw [List.nodup_cons] at hnd
          have hsacc : (MKey.kid s) ∉ acc.map Prod.fst :=
            hid s (List.mem_cons_self _ _)
          have hupd : dUpdate acc (.kid s) item = acc ++ [(.kid s, item)] :=
            dUpdate_of_lookup_none _ _ _ ((lookup_eq_none_iff _ _).2 hsacc)
          have hid2 : ∀ t ∈ idsOf rest,
              (MKey.kid t) ∉ (acc ++ [(MKey.kid s, item)]).map Prod.fst := by
            intro t ht hmem
            rw [List.map_append, List.mem_append] at hmem
            rcases hmem with h₁ | h₂
            · exact hid t (List.mem_cons_of_mem _ ht) h₁
            · simp only [List.map_cons, List.map_nil, List.mem_singleton] at h₂
              rw [MKey.kid.injEq] at h₂
              exact hnd.1 (h₂ ▸ ht)
          have hpos2 : ∀ q,
              (MKey.kpos q) ∈ (acc ++ [(MKey.kid s, item)]).map Prod.fst → q < pos := by
            intro q hmem
            rw [List.map_append, List.mem_append] at hmem
            rcases hmem with h₁ | h₂
            · exact hpos q h₁
            · simp at h₂
          simp only [seqIndexGo, hk, hupd]
          rw [ih pos (acc ++ [(MKey.kid s, item)]) hid2 hpos2 hnd.2]
          simp [seqLabel, hk]
      | none =>
          rw [idsOf_cons_none hk] at hid hnd
          have hpacc : (MKey.kpos pos) ∉ acc.map Prod.fst := by
            intro hmem
            exact absurd (hpos pos hmem) (lt_irrefl pos)
          have hupd : dUpdate acc (.kpos pos) item = acc ++ [(.kpos pos, item)] :=
            dUpdate_of_lookup_none _ _ _ ((lookup_eq_none_iff _ _).2 hpacc)
          have hid2 : ∀ t ∈ idsOf rest,
              (MKey.kid t) ∉ (acc ++ [(MKey.kpos pos, item)]).map Prod.fst := by
            intro t ht hmem
            rw [List.map_append, List.mem_append] at hmem
            rcases hmem with h₁ | h₂
            · exact hid t ht h₁
            · simp at h₂
          have hpos2 : ∀ q,
              (MKey.kpos q) ∈ (acc ++ [(MKey.kpos pos, item)]).map Prod.fst →
                q < pos + 1 := by
            intro q hmem
            rw [List.map_append, List.mem_append] at hmem
            rcases hmem with h₁ | h₂
            · exact Nat.lt_succ_of_lt (hpos q h₁)
            · simp only [List.map_cons, List.map_nil, List.mem_singleton] at h₂
              rw [MKey.kpos.injEq] at h₂
              omega
          simp only [seqIndexGo, hk, hupd]
          rw [ih (pos + 1) (acc ++ [(MKey.kpos pos, item)]) hid2 hpos2 hnd]
          simp [seqLabel, hk]

theorem seqLabel_lookup_kid (items : List Val) (pos : Nat) (k : String) :
    (seqLabel items pos).lookup (MKey.kid k) = findById k items := by
  induction items generalizing pos with
  | nil => rfl
  | cons item rest ih =>
      cases hk : idKeyOf item with
      | some s =>
          simp only [seqLabel, hk, List.lookup, findById, List.find?, hk,
            mkey_beq_kid, obeq_some_some]
          by_cases hks : k = s
          · subst hks
            simp
          · have h₁ : (k == s) = false := beq_eq_false_iff_ne.2 hks
            have h₂ : (s == k) = false := beq_eq_false_iff_ne.2 (Ne.symm hks)
            simp only [h₁, h₂]
            exact ih pos
      | none =>
          simp only [seqLabel, hk, List.lookup, findById, List.find?, hk,
            mkey_beq_kid_kpos, obeq_none_some]
          exact ih (pos + 1)

theorem seqLabel_kid_mem (items : List Val) (pos : Nat) (s : String) :
    (MKey.kid s ∈ (seqLabel items pos).map Prod.fst) ↔ s ∈ idsOf items := by
  induction items generalizing pos with
  | nil => simp [seqLabel, idsOf]
  | cons item rest ih =>
      cases hk : idKeyOf item with
      | some t =>
          rw [idsOf_cons_some hk]
          simp [seqLabel, hk, ih, List.mem_cons]
      | none =>
          rw [idsOf_cons_none hk]
          simp [seqLabel, hk, ih]

theorem seqLabel_kpos_ge (items : List Val) (pos q : Nat)
    (h : MKey.kpos q ∈ (seqLabel items pos).map Prod.fst) : pos ≤ q := by
  induction items generalizing pos with
  | nil => simp [seqLabel] at h
  | cons item rest ih =>
      cases hk : idKeyOf item with
      | some t =>
          simp only [seqLabel, hk, List.map_cons, List.mem_cons] at h
          rcases h with h₁ | h₂
          · cases h₁
          · exact ih pos h₂
      | none =>
          simp only [seqLabel, hk, List.map_cons, List.mem_cons] at h
          rcases h with h₁ | h₂
          · rw [MKey.kpos.injEq] at h₁
            omega
          · have := ih (pos + 1) h₂
            omega

theorem seqLabel_keys_nodup (items : List Val) (pos : Nat)
    (hnd : (idsOf items).Nodup) :
    ((seqLabel items pos).map Prod.fst).Nodup := by
  induction items generalizing pos with
  | nil => simp [seqLabel]
  | cons item rest ih =>
      cases hk : idKeyOf item with
      | some s =>
          rw [idsOf_cons_some hk, List.nodup_cons] at hnd
          simp only [seqLabel, hk, List.map_cons, List.nodup_cons]
          exact ⟨fun hmem => hnd.1 ((seqLabel_kid_mem rest pos s).1 hmem),
            ih pos hnd.2⟩
      | none =>
          rw [idsOf_cons_none hk] at hnd
          simp only [seqLabel, hk, List.map_cons, List.nodup_cons]
          refine ⟨fun hmem => ?_, ih (pos + 1) hnd⟩
          have := seqLabel_kpos_ge rest (pos + 1) pos hmem
          omega

theorem lookup_eraseKey_ne {κ α : Type} [BEq κ] [LawfulBEq κ]
    (l : List (κ × α)) (k k₀ : κ) (h : (k == k₀) = false) :
    (eraseKey l k₀).lookup k = l.lookup k := by
  induction l with
  | nil => rfl
  | cons hd tl ih =>
      obtain ⟨k₁, v₁⟩ := hd
      by_cases h₁ : (k₁ == k₀) = true
      · have he : k₁ = k₀ := eq_of_beq h₁
        subst he
        simp [eraseKey, List.lookup, h]
      · simp only [Bool.not_eq_true] at h₁
        simp only [eraseKey, h₁, Bool.false_eq_true, if_false, ite_false]
        by_cases h₂ : (k == k₁) = true
        · simp [List.lookup, h₂]
        · simp only [Bool.not_eq_true] at h₂
          simp [List.lookup, h₂, ih]

theorem eraseKey_eq_filter {κ α : Type} [BEq κ] [LawfulBEq κ]
    (l : List (κ × α)) (k : κ) (h : (l.map Prod.fst).Nodup) :
    eraseKey l k = l.filter fun e => !(e.1 == k) := by
  induction l with
  | nil => rfl
  | cons hd tl ih =>
      obtain ⟨k₁, v₁⟩ := hd
      simp only [List.map_cons, List.nodup_cons] at h
      by_cases h₁ : (k₁ == k) = true
      · have he : k₁ = k := eq_of_beq h₁
        subst he
        have hself : tl.filter (fun e => !(e.1 == k₁)) = tl := by
          apply List.filter_eq_self.2
          intro e hmem
          have hne : e.1 ≠ k₁ :=
            fun hek => h.1 (hek ▸ List.mem_map_of_mem Prod.fst hmem)
          simp [hne]
        simp [eraseKey, List.filter_cons, h₁, hself]
      · simp only [Bool.not_eq_true] at h₁
        simp [eraseKey, List.filter_cons, h₁, ih h.2]

/-- Should an index entry survive the old-sequence loop: positional
entries always do, identity entries survive unless their id occurs in
the old sequence. -/
def keepPred (oldIds : List String) (e : MKey × Val) : Bool :=
  match e.1 with
  | .kid k => !(oldIds.contains k)
  | .kpos _ => true

theorem seqPair_spec (old : List Val) (idx : List (MKey × Val))
    (hnk : (idx.map Prod.fst).Nodup) (hod : (idsOf old).Nodup) :
    (seqPair old idx).1 = (old.map fun it =>
        (it, (idKeyOf it).bind fun k => idx.lookup (.kid k))) ∧
    (seqPair old idx).2 = idx.filter (keepPred (idsOf old)) := by
  induction old generalizing idx with
  | nil =>
      refine ⟨rfl, ?_⟩
      symm
      apply List.filter_eq_self.2
      intro e _
      cases he : e.1 <;> simp [keepPred, he, idsOf]
  | cons item rest ih =>
      cases hk : idKeyOf item with
      | none =>
          rw [idsOf_cons_none hk] at hod ⊢
          obtain ⟨ih₁, ih₂⟩ := ih idx hnk hod
          constructor
          · simp only [seqPair, hk, List.map_cons, Option.none_bind]
            rw [ih₁]
          · simp only [seqPair, hk]
            exact ih₂
      | some s =>
          rw [idsOf_cons_some hk] at hod ⊢
          rw [List.nodup_cons] at hod
          cases hlk : idx.lookup (.kid s) with
          | some nv =>
              have hnk2 : ((eraseKey idx (.kid s)).map Prod.fst).Nodup := by
                rw [eraseKey_eq_filter idx _ hnk]
                exact hnk.sublist ((List.filter_sublist _).map Prod.fst)
              obtain ⟨ih₁, ih₂⟩ := ih (eraseKey idx (.kid s)) hnk2 hod.2
              constructor
              · simp only [seqPair, hk, hlk, List.map_cons, Option.some_bind]
                refine congrArg₂ List.cons rfl ?_
                rw [ih₁]
                apply List.map_congr_left
                intro it₂ hmem₂
                cases hk₂ : idKeyOf it₂ with
                | none => simp [hk₂]
                | some t =>
                    have hts : (MKey.kid t == MKey.kid s) = false := by
                      rw [mkey_beq_kid]
                      refine beq_eq_false_iff_ne.2 fun he => ?_
                      refine hod.1 (he ▸ ?_)
                      exact List.mem_filterMap.2 ⟨it₂, hmem₂, hk₂⟩
                    simp only [hk₂, Option.some_bind]
                    rw [lookup_eraseKey_ne _ _ _ hts]
              · simp only [seqPair, hk, hlk]
                rw [ih₂, eraseKey_eq_filter idx _ hnk, List.filter_filter]
                apply List.filter_congr
                intro e hmem
                cases he : e.1 with
                | kid t =>
                    simp only [keepPred, he, mkey_beq_kid, List.contains_cons]
                    by_cases hts : t = s
                    · subst hts
                      simp
                    · have h₁ : (t == s) = false := beq_eq_false_iff_ne.2 hts
                      simp [h₁]
                | kpos n =>
                    simp [keepPred, he, mkey_beq_kpos_kid]
          | none =>
              obtain ⟨ih₁, ih₂⟩ := ih idx hnk hod.2
              constructor
              · simp only [seqPair, hk, hlk, List.map_cons, Option.some_bind, hlk]
                rw [ih₁]
              · simp only [seqPair, hk, hlk]
                rw [ih₂]
                apply List.filter_congr
                intro e hmem
                cases he : e.1 with
                | kid t =>
                    have hts : t ≠ s := by
                      intro hts
                      subst hts
                      refine (lookup_eq_none_iff idx (MKey.kid t)).1 hlk ?_
                      exact he ▸ List.mem_map_of_mem Prod.fst hmem
                    have h₁ : (t == s) = false := beq_eq_false_iff_ne.2 hts
                    simp only [keepPred, he, List.contains_cons, h₁,
                      Bool.false_or]
                | kpos n =>
                    simp [keepPred, he]

theorem findById_isNone (k : String) (l : List Val) :
    (findById k l).isNone = !((idsOf l).contains k) := by
  induction l with
  | nil => rfl
  | cons item rest ih =>
      cases hk : idKeyOf item with
      | some t =>
          rw [idsOf_cons_some hk]
          simp only [findById, List.find?, hk, obeq_some_some, List.contains_cons]
          by_cases hts : t = k
          · subst hts
            simp
          · have h₁ : (t == k) = false := beq_eq_false_iff_ne.2 hts
            have h₂ : (k == t) = false := beq_eq_false_iff_ne.2 (Ne.symm hts)
            simp only [h₁, h₂, Bool.false_or]
            exact ih
      | none =>
          rw [idsOf_cons_none hk]
          simp only [findById, List.find?, hk, obeq_none_some]
          exact ih

theorem seqLabel_filter_map_snd (items : List Val) (pos : Nat)
    (p : MKey × Val → Bool) (q : Val → Bool)
    (hnone : ∀ it n, idKeyOf it = none → p (.kpos n, it) = q it)
    (hsome : ∀ it k, idKeyOf it = some k → p (.kid k, it) = q it) :
    ((seqLabel items pos).filter p).map Prod.snd = items.filter q := by
  induction items generalizing pos with
  | nil => rfl
  | cons item rest ih =>
      cases hk : idKeyOf item with
      | some s =>
          simp only [seqLabel, hk, List.filter_cons]
          rw [hsome item s hk]
          cases hq : q item <;> simp [hq, ih pos]
      | none =>
          simp only [seqLabel, hk, List.filter_cons]
          rw [hnone item pos hk]
          cases hq : q item <;> simp [hq, ih (pos + 1)]

theorem mergeVal_seq_eq (oitems nitems : List Val) :
    mergeVal (.seq oitems) (.seq nitems) =
      .seq (((seqPair oitems (seqIndex nitems)).1.map fun pr =>
              match pr.2 with
              | some nv => mergeVal pr.1 nv
              | none => pr.1)
            ++ (seqPair oitems (seqIndex nitems)).2.map Prod.snd) := by
  rw [mergeVal]
  simp only [asListItems]
  congr 1
  congr 1
  simp only [List.attach, List.attachWith, List.map_pmap]
  refine (List.pmap_congr_left _ fun a _ h₁ h₂ => ?_).trans
    (List.pmap_eq_map (fun x => x ∈ (seqPair oitems (seqIndex nitems)).1)
      (fun (pr : Val × Option Val) =>
        match pr.2 with
        | some nv => mergeVal pr.1 nv
        | none => pr.1) _ (fun _ h => h))
  obtain ⟨a₁, a₂⟩ := a
  cases a₂ <;> rfl

/-- C3 (amended): `!merge` of two sequences reconciles only through the
`id` identity key: an old item that is a mapping whose id occurs among
the new items is replaced by its deep merge against that new item;
every other old item — including every non-mapping item, which the code
keys by positional rank without ever matching it — is kept verbatim;
and the new items whose id matched no old item (so all non-id new
items) are appended in the new sequence's order.  Stated for sequences
whose identity keys are distinct on each side. -/
theorem mergeVal_seq_spec (old new : List Val)
    (ho : (idsOf old).Nodup) (hn : (idsOf new).Nodup) :
    mergeVal (.seq old) (.seq new) = .seq (
      (old.map fun it =>
        match idKeyOf it with
        | some k =>
            match findById k new with
            | some nv => mergeVal it nv
            | none => it
        | none => it) ++
      (new.filter fun it =>
        match idKeyOf it with
        | some k => (findById k old).isNone
        | none => true)) := by
  have hidx : seqIndex new = seqLabel new 0 := by
    rw [seqIndex, seqIndexGo_eq_label new 0 [] (by simp) (by simp) hn]
    rfl
  obtain ⟨h₁, h₂⟩ := seqPair_spec old (seqLabel new 0)
    (seqLabel_keys_nodup new 0 hn) ho
  rw [mergeVal_seq_eq, hidx, h₁, h₂]
  congr 1
  congr 1
  · rw [List.map_map]
    apply List.map_congr_left
    intro it _
    cases hk : idKeyOf it with
    | some k =>
        simp only [Function.comp, hk, Option.some_bind, seqLabel_lookup_kid]
    | none =>
        simp only [Function.comp, hk, Option.none_bind]
  · apply seqLabel_filter_map_snd
    · intro it n hk
      simp [keepPred, hk]
    · intro it k hk
      simp only [keepPred, hk, findById_isNone]

/-- C3, witness for the amended theorem: the merge-by-id example
`!merge [[{id: a, v: 1}, {id: b, v: 2}], [{id: b, v: 9}, {id: c, v: 3}]]`
yields `[{id: a, v: 1}, {id: b, v: 9}, {id: c, v: 3}]`. -/
theorem mergeVal_seq_spec_witness :
    constructMerge
      [.seq [.map [("id", .str "a"), ("v", .int 1)],
             .map [("id", .str "b"), ("v", .int 2)]],
       .seq [.map [("id", .str "b"), ("v", .int 9)],
             .map [("id", .str "c"), ("v", .int 3)]]] =
    .seq [.map [("id", .str "a"), ("v", .int 1)],
          .map [("id", .str "b"), ("v", .int 9)],
          .map [("id", .str "c"), ("v", .int 3)]] := by
  have h := mergeVal_seq_spec
    [.map [("id", .str "a"), ("v", .int 1)],
     .map [("id", .str "b"), ("v", .int 2)]]
    [.map [("id", .str "b"), ("v", .int 9)],
     .map [("id", .str "c"), ("v", .int 3)]]
    (by simp +decide [idsOf, idKeyOf, pyStr, List.filterMap_cons, List.lookup])
    (by simp +decide [idsOf, idKeyOf, pyStr, List.filterMap_cons, List.lookup])
  have hfold : constructMerge
      [.seq [.map [("id", .str "a"), ("v", .int 1)],
             .map [("id", .str "b"), ("v", .int 2)]],
       .seq [.map [("id", .str "b"), ("v", .int 9)],
             .map [("id", .str "c"), ("v", .int 3)]]] =
      mergeVal
        (.seq [.map [("id", .str "a"), ("v", .int 1)],
               .map [("id", .str "b"), ("v", .int 2)]])
        (.seq [.map [("id", .str "b"), ("v", .int 9)],
               .map [("id", .str "c"), ("v", .int 3)]]) := by
    simp only [constructMerge, List.foldl]
    rw [show mergeVal .vnull
        (.seq [.map [("id", .str "a"), ("v", .int 1)],
               .map [("id", .str "b"), ("v", .int 2)]]) =
        (.seq [.map [("id", .str "a"), ("v", .int 1)],
               .map [("id", .str "b"), ("v", .int 2)]]) from by
      rw [mergeVal]
      rfl]
  rw [hfold, h]
  simp +decide [mergeVal, seqPair, seqIndex, seqIndexGo, seqLabel, dUpdate,
    eraseKey, asListItems, idKeyOf, findById, idsOf, List.attach,
    List.attachWith, List.pmap, List.lookup, List.find?, pyStr,
    mkey_beq_kid, mkey_beq_kpos, mkey_beq_kid_kpos, mkey_beq_kpos_kid]

end YamlUtil
